import Mathlib

/-!
Verification of the numeric core of the ProRaw converter
(`rawconverter/include/raw_converter.hpp`, class `yk::RawConverter`).

The pixel buffer is modelled as a channel-major array of rational samples
(the C++ code stores `float`/integer samples; we use exact rationals for
the arithmetic and exact reals where the code calls `std::pow`).  An
integer conversion in C++ (`static_cast<int>`, `static_cast<ushort>` of a
float) truncates toward zero; `ratTrunc` models it.
-/

namespace RawConverter

/-- A 3xN channel-major pixel buffer: `data ch i` is the sample of channel
`ch` (0 = R, 1 = G, 2 = B) at pixel `i`; only `ch < 3` and `i < N` are
meaningful. -/
@[ext]
structure Buf where
  N : ℕ
  data : ℕ → ℕ → ℚ

/-- C++ float-to-int conversion: truncation toward zero. -/
def ratTrunc (q : ℚ) : ℤ := if q < 0 then ⌈q⌉ else ⌊q⌋

/-- `xt::clip(src, 0, USHRT_MAX)` on one sample. -/
def clipQ (q : ℚ) : ℚ := max 0 (min 65535 q)

/-- Clip a whole buffer, as `xt::clip` does inside `adjust_brightness`. -/
def clipB (b : Buf) : Buf := ⟨b.N, fun ch i => clipQ (b.data ch i)⟩

/-- Histogram bucket of one (already clipped) sample:
`static_cast<ushort>(v) >> 3`. -/
def bucketOf (q : ℚ) : ℕ := (ratTrunc q).toNat / 8

/-- The 8192-bucket histogram built from the green channel of the clipped
buffer: `histogram[static_cast<ushort>(image(1, i)) >> 3]++` over all
pixels. -/
def hist (b : Buf) (k : ℕ) : ℕ :=
  ((Finset.range b.N).filter (fun i => bucketOf (clipQ (b.data 1 i)) = k)).card

/-- `int acc_thresh = image.shape()[1] * strech_rate * 0.5f`. -/
def accThresh (b : Buf) (r : ℚ) : ℤ := ratTrunc ((b.N : ℚ) * r * (1/2))

/-- The low-end histogram scan of `adjust_brightness`:
`while (acc < acc_thresh && bin < histogram.size()) { acc += histogram[bin]; bin++; }`. -/
def scanMin (h : ℕ → ℕ) (t : ℤ) (bin : ℕ) (acc : ℤ) : ℕ :=
  if hc : acc < t ∧ bin < 8192 then scanMin h t (bin + 1) (acc + h bin) else bin
  termination_by 8192 - bin
  decreasing_by omega

/-- The high-end histogram scan of `adjust_brightness`:
`while (acc < acc_thresh && 0 < bin) { acc += histogram[bin]; bin--; }`
starting from `bin = histogram.size() - 1`. -/
def scanMax (h : ℕ → ℕ) (t : ℤ) (bin : ℕ) (acc : ℤ) : ℕ :=
  if hc : acc < t ∧ 0 < bin then scanMax h t (bin - 1) (acc + h bin) else bin
  termination_by bin

/-- `min_value = (bin << 3)` produced by the low scan. -/
def minValue (b : Buf) (r : ℚ) : ℚ := (8 * scanMin (hist b) (accThresh b r) 0 0 : ℕ)

/-- `max_value = (bin << 3)` produced by the high scan. -/
def maxValue (b : Buf) (r : ℚ) : ℚ := (8 * scanMax (hist b) (accThresh b r) 8191 0 : ℕ)

/-- `xt::amin(image)()` over the whole (clipped) buffer; its value is only
ever used in the degenerate `0.999999f <= strech_rate` branch. -/
def aminQ (b : Buf) : ℚ :=
  WithBot.unbot' 0 (((Finset.range 3 ×ˢ Finset.range b.N).image
    (fun p => b.data p.1 p.2)).min)

/-- The pair `(min_value, max_value)` that `adjust_brightness` ends up
with after its branches: the degenerate branch forces
`max_value = min_value` (the clipped minimum), otherwise both come from
the histogram scans. -/
def mnmx (b : Buf) (r : ℚ) : ℚ × ℚ :=
  if 999999/1000000 ≤ r then (aminQ (clipB b), aminQ (clipB b))
  else (minValue b r, maxValue b r)

/-- `alpha = (max_value - min_value) < 0.00001 ? 0 : USHRT_MAX / (max_value - min_value)`. -/
def alphaOf (b : Buf) (r : ℚ) : ℚ :=
  if (mnmx b r).2 - (mnmx b r).1 < 1/100000 then 0
  else 65535 / ((mnmx b r).2 - (mnmx b r).1)

/-- `beta = -min_value * alpha`. -/
def betaOf (b : Buf) (r : ℚ) : ℚ := -(mnmx b r).1 * alphaOf b r

/-- `RawConverter::adjust_brightness`: identity below the `0.000001f`
stretch-rate cutoff, otherwise `xt::fma(image, alpha, beta)` over the
clipped buffer. -/
def adjust_brightness (b : Buf) (r : ℚ) : Buf :=
  if r < 1/1000000 then b
  else ⟨b.N, fun ch i => clipQ (b.data ch i) * alphaOf b r + betaOf b r⟩

/-- `RawConverter::subtract_black`: a nonzero scalar black level is
subtracted from every channel; otherwise each of the three channels is
reduced by its own (nonzero) per-channel level. -/
def subtract_black (b : Buf) (black_level : ℚ) (black_levels : ℕ → ℚ) : Buf :=
  if black_level ≠ 0 then ⟨b.N, fun ch i => b.data ch i - black_level⟩
  else ⟨b.N, fun ch i =>
    if ch < 3 ∧ black_levels ch ≠ 0 then b.data ch i - black_levels ch
    else b.data ch i⟩

/-- An integer-sample 3xN buffer, for the stages the C++ code runs on
integral tensors (`raw_adjust`). -/
@[ext]
structure IBuf where
  N : ℕ
  data : ℕ → ℕ → ℤ

/-- `RawConverter::raw_adjust`: each sample of the three channels becomes
`std::clamp<int>(s << 3, 0, USHRT_MAX)`; the `scale` argument is accepted
and never used. -/
def raw_adjust (b : IBuf) (scale : ℚ) : IBuf :=
  ⟨b.N, fun ch i =>
    if ch < 3 ∧ i < b.N then max 0 (min 65535 (b.data ch i * 8)) else b.data ch i⟩

/-! ### Color matrices and `camera_to_xyz` -/

/-- A 3x3 float matrix of the converter, as exact rationals. -/
abbrev Mat3 := Fin 3 → Fin 3 → ℚ

/-- A pixel buffer with its three channels indexed by `Fin 3`, as consumed
by the matrix stages. -/
abbrev XBuf := Fin 3 → ℕ → ℚ

/-- `xt::sum(cam_from_xyz, {1})`: the sum of one row. -/
def rowSum (m : Mat3) (i : Fin 3) : ℚ := m i 0 + m i 1 + m i 2

/-- `xt::diag(xt::xarray<float>{ab[0], ab[1], ab[2]})`. -/
def diag3 (v : Fin 3 → ℚ) : Mat3 := fun i j => if i = j then v i else 0

/-- `xt::linalg::dot` of two 3x3 matrices. -/
def dot3 (a b : Mat3) : Mat3 := fun i j =>
  a i 0 * b 0 j + a i 1 * b 1 j + a i 2 * b 2 j

/-- One iteration of the row-normalization loop of `camera_to_xyz`: row
`i` is divided by its sum when `0.0000001 < sum(i)` and zeroed
otherwise; all other rows are untouched. -/
def normStep (m : Mat3) (i : Fin 3) : Mat3 := fun r j =>
  if r = i then
    (if 1/10000000 < rowSum m i then m i j / rowSum m i else 0)
  else m r j

/-- The full three-iteration normalization loop (`for (int i = 0; i < 3; i++)`). -/
def normalizeRows (m : Mat3) : Mat3 := normStep (normStep (normStep m 0) 1) 2

/-- Determinant of a 3x3 matrix, cofactor expansion along the first row. -/
def det3 (m : Mat3) : ℚ :=
  m 0 0 * (m 1 1 * m 2 2 - m 1 2 * m 2 1)
    - m 0 1 * (m 1 0 * m 2 2 - m 1 2 * m 2 0)
    + m 0 2 * (m 1 0 * m 2 1 - m 1 1 * m 2 0)

/-- Adjugate (transposed cofactor matrix) of a 3x3 matrix. -/
def adj3 (m : Mat3) : Mat3 :=
  ![![m 1 1 * m 2 2 - m 1 2 * m 2 1, m 0 2 * m 2 1 - m 0 1 * m 2 2,
     m 0 1 * m 1 2 - m 0 2 * m 1 1],
    ![m 1 2 * m 2 0 - m 1 0 * m 2 2, m 0 0 * m 2 2 - m 0 2 * m 2 0,
     m 0 2 * m 1 0 - m 0 0 * m 1 2],
    ![m 1 0 * m 2 1 - m 1 1 * m 2 0, m 0 1 * m 2 0 - m 0 0 * m 2 1,
     m 0 0 * m 1 1 - m 0 1 * m 1 0]]

/-- `xt::linalg::inv` on an invertible 3x3 matrix: adjugate over
determinant. -/
def inv3 (m : Mat3) : Mat3 := fun i j => adj3 m i j / det3 m

/-- `RawConverter::camera_to_xyz`: compose
`cam_from_xyz = analog_balance . color_matrix`, normalize its rows, invert,
and multiply the inverse against the pixel buffer. -/
def camera_to_xyz (img : XBuf) (cm : Mat3) (ab : Fin 3 → ℚ) : XBuf :=
  let cam_from_xyz := dot3 (diag3 ab) cm
  let xyz_from_cam := inv3 (normalizeRows cam_from_xyz)
  fun i p =>
    xyz_from_cam i 0 * img 0 p + xyz_from_cam i 1 * img 1 p +
      xyz_from_cam i 2 * img 2 p

/-! ### The memoized gamma curve (`gamma_correction`) -/

/-- Gamma curve constant `gmm = 2.4`. -/
def gmm : ℝ := 2.4

/-- Gamma curve constant `linear_coeff = 12.92`. -/
def linear_coeff : ℚ := 12.92

/-- Gamma curve constant `linear_thresh_coeff = 0.0031308`. -/
def linear_thresh_coeff : ℚ := 0.0031308

/-- Gamma curve constant `black_offset = 0.055`. -/
def black_offset : ℝ := 0.055

/-- The `gamma_curve` memo table: one integer slot per 16-bit input level
(only indices `0..65535` are ever addressed). -/
def Cache := ℕ → ℤ

/-- The table of a fresh converter: `gamma_curve(1 << 16, -1)`, every slot
holding the `-1` sentinel. -/
def gamma_curve_init : Cache := fun _ => -1

/-- Writing one slot of the memo table. -/
def cacheUpdate (c : Cache) (v : ℕ) (g : ℤ) : Cache :=
  fun n => if n = v then g else c n

/-- `const int src_val = std::min<int>(USHRT_MAX, std::max<int>(0, image(ch, i)))`. -/
def srcVal (q : ℚ) : ℤ := min 65535 (max 0 (ratTrunc q))

/-- The slot of the memo table addressed by a sample. -/
def gammaSlot (q : ℚ) : ℕ := (srcVal q).toNat

/-- `constexpr ushort thresh = linear_thresh_coeff * max_value` (the
float product truncated by the `ushort` conversion). -/
def thresh : ℤ := ratTrunc (linear_thresh_coeff * 65535)

/-- C++ float-to-int conversion on a real: truncation toward zero. -/
noncomputable def realTrunc (x : ℝ) : ℤ := if x < 0 then ⌈x⌉ else ⌊x⌋

/-- The power segment:
`value = (pow(src_val / max_value, 1. / gmm) * 1.055 - black_offset) * max_value`. -/
noncomputable def powerVal (v : ℤ) : ℝ :=
  (((v : ℝ) / 65535) ^ ((1 : ℝ) / gmm) * 1.055 - black_offset) * 65535

/-- Processing of a single sample by `gamma_correction`: a populated slot
is reused; otherwise the value below `thresh` takes the linear segment
(computed from the raw sample `image(ch, i)`), every other value the power
segment (computed from the clamped `src_val`); the computed value is
clamped to `[0, USHRT_MAX]`, written into the slot, and the slot content
is stored back through a `ushort` cast. -/
noncomputable def gammaStep (c : Cache) (q : ℚ) : ℤ × Cache :=
  if 0 ≤ c (gammaSlot q) then (c (gammaSlot q) % 65536, c)
  else if q < (thresh : ℚ) then
    (max 0 (min 65535 (ratTrunc (q * linear_coeff))) % 65536,
     cacheUpdate c (gammaSlot q) (max 0 (min 65535 (ratTrunc (q * linear_coeff)))))
  else
    (max 0 (min 65535 (realTrunc (powerVal (srcVal q)))) % 65536,
     cacheUpdate c (gammaSlot q) (max 0 (min 65535 (realTrunc (powerVal (srcVal q))))))

/-- Sequential processing of a list of samples, threading the memo table. -/
noncomputable def gammaList (c : Cache) : List ℚ → List ℤ × Cache
  | [] => ([], c)
  | q :: rest =>
    let p := gammaStep c q
    let pr := gammaList p.2 rest
    (p.1 :: pr.1, pr.2)

/-- The samples of a buffer in processing order (channel-major, as the
`for (ch) for (i)` loops visit them). -/
def bufSamples (b : Buf) : List ℚ :=
  (List.range 3).flatMap fun ch => (List.range b.N).map (b.data ch)

/-- `RawConverter::gamma_correction` on a buffer, given the current state
of the converter's memo table: the list of produced samples plus the
updated table. -/
noncomputable def gamma_correction (c : Cache) (b : Buf) : List ℤ × Cache :=
  gammaList c (bufSamples b)

/-- Modelled from the spec: the transfer function exactly as §4.3 words
it, a function of the integer-rounded, range-clamped value `v` alone —
the linear segment for `v` below `0.0031308 × 65535`, the power segment
otherwise, clamped to `[0, 65535]`. -/
noncomputable def gammaSpecValue (v : ℤ) : ℤ :=
  if (v : ℚ) < linear_thresh_coeff * 65535 then
    max 0 (min 65535 (ratTrunc ((v : ℚ) * linear_coeff)))
  else
    max 0 (min 65535 (realTrunc (powerVal v)))

/-- A memo table is spec-consistent when every populated slot holds
exactly the specification's transfer value for its input level; a fresh
table satisfies this vacuously, and processing integer-valued samples
preserves it. -/
def specCache (c : Cache) : Prop := ∀ m : ℕ, 0 ≤ c m → c m = gammaSpecValue m

/-- The test buffer of `TestAdjustBrightnesInt`: all three channels hold
the ramp `0, 1, ..., 65535`. -/
def ramp : Buf := ⟨65536, fun _ i => (i : ℚ)⟩

end RawConverter

namespace RawConverter

/-! ### Basic facts about `adjust_brightness` -/

theorem adjust_brightness_of_lt (b : Buf) (r : ℚ) (h : r < 1/1000000) :
    adjust_brightness b r = b := by
  rw [adjust_brightness, if_pos h]

theorem alphaOf_degenerate (b : Buf) (r : ℚ) (h : 999999/1000000 ≤ r) :
    alphaOf b r = 0 := by
  simp [alphaOf, mnmx, h]

theorem betaOf_degenerate (b : Buf) (r : ℚ) (h : 999999/1000000 ≤ r) :
    betaOf b r = 0 := by
  simp [betaOf, alphaOf_degenerate b r h]

/-- **C5.** `adjust_brightness` with any stretch rate below `0.000001`
returns the input buffer unchanged: `if (strech_rate < 0.000001f) return src;`. -/
theorem adjust_brightness_identity_of_small_rate (b : Buf) (r : ℚ)
    (h : r < 1/1000000) : adjust_brightness b r = b :=
  adjust_brightness_of_lt b r h

/-- Witness for C5: stretch rate `0` on a concrete buffer. -/
theorem adjust_brightness_identity_of_small_rate_witness :
    (0 : ℚ) < 1/1000000 ∧
      adjust_brightness ⟨2, fun ch i => (ch : ℚ) + i⟩ 0 = ⟨2, fun ch i => (ch : ℚ) + i⟩ :=
  ⟨by norm_num,
   adjust_brightness_identity_of_small_rate ⟨2, fun ch i => (ch : ℚ) + i⟩ 0 (by norm_num)⟩

/-- **C6.** `adjust_brightness` with a stretch rate at or above `0.999999`
forces `max_value = min_value`, hence `alpha = 0`, `beta = 0`, and every
sample of every channel of the output equals the single constant `0`. -/
theorem adjust_brightness_constant_of_rate_one (b : Buf) (r : ℚ)
    (h : 999999/1000000 ≤ r) (ch i : ℕ) :
    (adjust_brightness b r).data ch i = 0 := by
  have hr : ¬ r < 1/1000000 := by
    intro hcon
    have : (999999 : ℚ)/1000000 < 1/1000000 := lt_of_le_of_lt h hcon
    norm_num at this
  rw [adjust_brightness, if_neg hr]
  simp [alphaOf_degenerate b r h, betaOf_degenerate b r h]

/-- Witness for C6: stretch rate `1` on a concrete buffer. -/
theorem adjust_brightness_constant_of_rate_one_witness :
    (999999 : ℚ)/1000000 ≤ 1 ∧
      (adjust_brightness ⟨2, fun ch i => (ch : ℚ) + i⟩ 1).data 1 0 = 0 :=
  ⟨by norm_num,
   adjust_brightness_constant_of_rate_one ⟨2, fun ch i => (ch : ℚ) + i⟩ 1 (by norm_num) 1 0⟩

/-! ### Non-interference of the non-green channels in `adjust_brightness` -/

theorem hist_congr (b₁ b₂ : Buf) (hN : b₁.N = b₂.N)
    (hg : ∀ i < b₁.N, clipQ (b₁.data 1 i) = clipQ (b₂.data 1 i)) :
    hist b₁ = hist b₂ := by
  funext k
  rw [hist, hist, ← hN]
  congr 1
  refine Finset.filter_congr ?_
  intro i hi
  rw [hg i (Finset.mem_range.mp hi)]

/-- **C8.** For a stretch rate in the histogram branch
(`1e-6 ≤ r < 0.999999`), the affine coefficients `alpha` and `beta` are a
function of the clipped green channel and the pixel count alone, and the
map `sample * alpha + beta` is applied identically to all three channels
of the clipped buffer. -/
theorem adjust_brightness_green_only (b₁ b₂ : Buf) (r : ℚ)
    (hN : b₁.N = b₂.N)
    (hg : ∀ i < b₁.N, clipQ (b₁.data 1 i) = clipQ (b₂.data 1 i))
    (hr₁ : 1/1000000 ≤ r) (hr₂ : r < 999999/1000000) :
    alphaOf b₁ r = alphaOf b₂ r ∧ betaOf b₁ r = betaOf b₂ r ∧
    (∀ ch i, (adjust_brightness b₁ r).data ch i =
      clipQ (b₁.data ch i) * alphaOf b₁ r + betaOf b₁ r) ∧
    (∀ ch i, (adjust_brightness b₂ r).data ch i =
      clipQ (b₂.data ch i) * alphaOf b₂ r + betaOf b₂ r) := by
  have hhist : hist b₁ = hist b₂ := hist_congr b₁ b₂ hN hg
  have hacc : accThresh b₁ r = accThresh b₂ r := by
    rw [accThresh, accThresh, hN]
  have hr₂' : ¬ 999999/1000000 ≤ r := not_le.mpr hr₂
  have hmn : mnmx b₁ r = mnmx b₂ r := by
    rw [mnmx, mnmx, if_neg hr₂', if_neg hr₂', minValue, minValue,
      maxValue, maxValue, hhist, hacc]
  have ha : alphaOf b₁ r = alphaOf b₂ r := by
    rw [alphaOf, alphaOf, hmn]
  have hb : betaOf b₁ r = betaOf b₂ r := by
    rw [betaOf, betaOf, hmn, ha]
  have hnr : ¬ r < 1/1000000 := not_lt.mpr hr₁
  refine ⟨ha, hb, ?_, ?_⟩
  · intro ch i
    rw [adjust_brightness, if_neg hnr]
  · intro ch i
    rw [adjust_brightness, if_neg hnr]

/-- Witness for C8: two one-pixel buffers sharing the green channel but
differing on red, at stretch rate `1/2`. -/
theorem adjust_brightness_green_only_witness :
    ((⟨1, fun ch i => if ch = 0 then 5 else 7⟩ : Buf).N = (⟨1, fun _ _ => 7⟩ : Buf).N) ∧
    (1 : ℚ)/1000000 ≤ 1/2 ∧ (1 : ℚ)/2 < 999999/1000000 ∧
    alphaOf ⟨1, fun ch i => if ch = 0 then 5 else 7⟩ (1/2) = alphaOf ⟨1, fun _ _ => 7⟩ (1/2) := by
  refine ⟨rfl, by norm_num, by norm_num, ?_⟩
  exact (adjust_brightness_green_only ⟨1, fun ch i => if ch = 0 then 5 else 7⟩
    ⟨1, fun _ _ => 7⟩ (1/2) rfl (fun i _ => by norm_num) (by norm_num) (by norm_num)).1

/-! ### `subtract_black` and `raw_adjust` -/

/-- **C7.** `subtract_black` with scalar level `0` and all per-channel
levels `0` is the identity; a nonzero scalar level `bl` is subtracted from
every sample of every channel; with scalar level `0` each of the three
channels is reduced by its own per-channel level (no clamping anywhere, so
results may be negative). -/
theorem subtract_black_spec (b : Buf) (bl : ℚ) (bls : ℕ → ℚ)
    (hbl : bl ≠ 0) :
    subtract_black b 0 (fun _ => 0) = b ∧
    (∀ ch i, (subtract_black b bl bls).data ch i = b.data ch i - bl) ∧
    (∀ ch i, ch < 3 →
      (subtract_black b 0 bls).data ch i = b.data ch i - bls ch) := by
  refine ⟨?_, ?_, ?_⟩
  · rw [subtract_black]
    simp
  · intro ch i
    rw [subtract_black, if_pos hbl]
  · intro ch i hch
    rw [subtract_black]
    simp only [ne_eq, not_true_eq_false, if_false]
    by_cases hz : bls ch = 0
    · simp [hz, hch]
    · simp [hz, hch]

/-- Witness for C7 at a concrete buffer, scalar level `5`, per-channel
levels `(1, 2, 3)`. -/
theorem subtract_black_spec_witness :
    (5 : ℚ) ≠ 0 ∧
      (subtract_black ⟨1, fun ch i => (ch : ℚ) + i + 10⟩ 5 (fun c => c + 1)).data 0 0 = 5 ∧
      (subtract_black ⟨1, fun ch i => (ch : ℚ) + i + 10⟩ 0 (fun c => c + 1)).data 1 0 = 9 := by
  have h := subtract_black_spec ⟨1, fun ch i => (ch : ℚ) + i + 10⟩ 5
    (fun c => (c : ℚ) + 1) (by norm_num)
  refine ⟨by norm_num, ?_, ?_⟩
  · have := h.2.1 0 0
    simp only at this
    rw [this]; norm_num
  · have := h.2.2 1 0 (by norm_num)
    simp only at this
    rw [this]; norm_num

/-- **C9.** `raw_adjust` replaces every sample `s` of the three channels
with `std::clamp<int>(s << 3, 0, USHRT_MAX)`, which for a non-negative
16-bit sample is `min (8 * s) 65535`; the `scale` argument never affects
the result. -/
theorem raw_adjust_spec (b : IBuf) (scale : ℚ) (ch i : ℕ)
    (hch : ch < 3) (hi : i < b.N) (hnn : 0 ≤ b.data ch i)
    (h16 : b.data ch i ≤ 65535) :
    (raw_adjust b scale).data ch i = min (8 * b.data ch i) 65535 ∧
    (∀ s₁ s₂ : ℚ, raw_adjust b s₁ = raw_adjust b s₂) := by
  constructor
  · rw [raw_adjust]
    simp only [hch, hi, and_self, if_true]
    omega
  · intro s₁ s₂
    rw [raw_adjust, raw_adjust]

/-- Witness for C9: a one-pixel buffer with sample value `9000`. -/
theorem raw_adjust_spec_witness :
    (0 : ℕ) < 3 ∧ (0 : ℕ) < 1 ∧ (0 : ℤ) ≤ 9000 ∧ (9000 : ℤ) ≤ 65535 ∧
      ((raw_adjust ⟨1, fun _ _ => 9000⟩ (1/2)).data 0 0 = min (8 * 9000) 65535 ∧
       (∀ s₁ s₂ : ℚ, raw_adjust ⟨1, fun _ _ => 9000⟩ s₁ = raw_adjust ⟨1, fun _ _ => 9000⟩ s₂)) := by
  refine ⟨by norm_num, by norm_num, by norm_num, by norm_num, ?_⟩
  exact raw_adjust_spec ⟨1, fun _ _ => 9000⟩ (1/2) 0 0 (by norm_num) (by norm_num)
    (by norm_num) (by norm_num)

/-! ### The integer-ramp regression for `adjust_brightness` -/

theorem ratTrunc_natCast (i : ℕ) : ratTrunc (i : ℚ) = i := by
  rw [ratTrunc, if_neg (not_lt.mpr (by positivity))]
  exact_mod_cast Int.floor_natCast i

theorem clipQ_natCast (i : ℕ) (h : i ≤ 65535) : clipQ (i : ℚ) = (i : ℚ) := by
  have h1 : (i : ℚ) ≤ 65535 := by exact_mod_cast h
  rw [clipQ, min_eq_right h1, max_eq_right (by positivity)]

theorem bucketOf_natCast (i : ℕ) : bucketOf (i : ℚ) = i / 8 := by
  rw [bucketOf, ratTrunc_natCast]
  simp

theorem hist_ramp (k : ℕ) : hist ramp k = if k < 8192 then 8 else 0 := by
  rw [hist]
  have hcg : ∀ i ∈ Finset.range ramp.N,
      (bucketOf (clipQ (ramp.data 1 i)) = k) ↔ (i / 8 = k) := by
    intro i hi
    have hi2 : i < 65536 := Finset.mem_range.mp hi
    have hi' : i ≤ 65535 := by omega
    rw [show ramp.data 1 i = (i : ℚ) from rfl, clipQ_natCast i hi', bucketOf_natCast]
  rw [Finset.filter_congr hcg]
  by_cases hk : k < 8192
  · rw [if_pos hk]
    have he : (Finset.range ramp.N).filter (fun i => i / 8 = k) =
        Finset.Ico (8 * k) (8 * k + 8) := by
      ext i
      simp only [Finset.mem_filter, Finset.mem_range, Finset.mem_Ico]
      show i < 65536 ∧ i / 8 = k ↔ _
      omega
    rw [he, Nat.card_Ico]
    omega
  · rw [if_neg hk]
    have he : (Finset.range ramp.N).filter (fun i => i / 8 = k) = ∅ := by
      ext i
      simp only [Finset.mem_filter, Finset.mem_range, Finset.not_mem_empty,
        iff_false, not_and]
      show i < 65536 → ¬ i / 8 = k
      omega
    rw [he, Finset.card_empty]

theorem accThresh_ramp : accThresh ramp (160/65536) = 80 := by
  rw [accThresh, show ((ramp.N : ℚ)) * (160/65536) * (1/2) = 80 by
    show ((65536 : ℕ) : ℚ) * (160/65536) * (1/2) = 80
    norm_num]
  rw [ratTrunc, if_neg (by norm_num)]
  simp

theorem scanMin_step (h : ℕ → ℕ) (t : ℤ) (bin : ℕ) (acc : ℤ)
    (h1 : acc < t) (h2 : bin < 8192) :
    scanMin h t bin acc = scanMin h t (bin + 1) (acc + h bin) := by
  rw [scanMin]
  rw [dif_pos ⟨h1, h2⟩]

theorem scanMin_stop (h : ℕ → ℕ) (t : ℤ) (bin : ℕ) (acc : ℤ)
    (hc : ¬ (acc < t ∧ bin < 8192)) : scanMin h t bin acc = bin := by
  rw [scanMin]
  rw [dif_neg hc]

theorem scanMax_step (h : ℕ → ℕ) (t : ℤ) (bin : ℕ) (acc : ℤ)
    (h1 : acc < t) (h2 : 0 < bin) :
    scanMax h t bin acc = scanMax h t (bin - 1) (acc + h bin) := by
  rw [scanMax]
  rw [dif_pos ⟨h1, h2⟩]

theorem scanMax_stop (h : ℕ → ℕ) (t : ℤ) (bin : ℕ) (acc : ℤ)
    (hc : ¬ (acc < t ∧ 0 < bin)) : scanMax h t bin acc = bin := by
  rw [scanMax]
  rw [dif_neg hc]

theorem scanMin_ramp : scanMin (hist ramp) 80 0 0 = 10 := by
  have hstep : ∀ bin acc, acc < 80 → bin < 8192 →
      scanMin (hist ramp) 80 bin acc = scanMin (hist ramp) 80 (bin + 1) (acc + 8) := by
    intro bin acc h1 h2
    rw [scanMin_step _ _ _ _ h1 h2, hist_ramp, if_pos h2]
    norm_num
  rw [hstep 0 0 (by norm_num) (by norm_num)]; norm_num
  rw [hstep 1 8 (by norm_num) (by norm_num)]; norm_num
  rw [hstep 2 16 (by norm_num) (by norm_num)]; norm_num
  rw [hstep 3 24 (by norm_num) (by norm_num)]; norm_num
  rw [hstep 4 32 (by norm_num) (by norm_num)]; norm_num
  rw [hstep 5 40 (by norm_num) (by norm_num)]; norm_num
  rw [hstep 6 48 (by norm_num) (by norm_num)]; norm_num
  rw [hstep 7 56 (by norm_num) (by norm_num)]; norm_num
  rw [hstep 8 64 (by norm_num) (by norm_num)]; norm_num
  rw [hstep 9 72 (by norm_num) (by norm_num)]; norm_num
  rw [scanMin_stop _ _ _ _ (by norm_num)]

theorem scanMax_ramp : scanMax (hist ramp) 80 8191 0 = 8181 := by
  have hstep : ∀ bin acc, acc < 80 → 0 < bin → bin < 8192 →
      scanMax (hist ramp) 80 bin acc = scanMax (hist ramp) 80 (bin - 1) (acc + 8) := by
    intro bin acc h1 h2 h3
    rw [scanMax_step _ _ _ _ h1 h2, hist_ramp, if_pos h3]
    norm_num
  rw [hstep 8191 0 (by norm_num) (by norm_num) (by norm_num)]; norm_num
  rw [hstep 8190 8 (by norm_num) (by norm_num) (by norm_num)]; norm_num
  rw [hstep 8189 16 (by norm_num) (by norm_num) (by norm_num)]; norm_num
  rw [hstep 8188 24 (by norm_num) (by norm_num) (by norm_num)]; norm_num
  rw [hstep 8187 32 (by norm_num) (by norm_num) (by norm_num)]; norm_num
  rw [hstep 8186 40 (by norm_num) (by norm_num) (by norm_num)]; norm_num
  rw [hstep 8185 48 (by norm_num) (by norm_num) (by norm_num)]; norm_num
  rw [hstep 8184 56 (by norm_num) (by norm_num) (by norm_num)]; norm_num
  rw [hstep 8183 64 (by norm_num) (by norm_num) (by norm_num)]; norm_num
  rw [hstep 8182 72 (by norm_num) (by norm_num) (by norm_num)]; norm_num
  rw [scanMax_stop _ _ _ _ (by norm_num)]

theorem minValue_ramp : minValue ramp (160/65536) = 80 := by
  rw [minValue, accThresh_ramp, scanMin_ramp]
  norm_num

theorem maxValue_ramp : maxValue ramp (160/65536) = 65448 := by
  rw [maxValue, accThresh_ramp, scanMax_ramp]
  norm_num

/-- **C1.** On the three-channel ramp of every value `0..65535`,
`adjust_brightness` with stretch rate `8*10*2/65536` produces, on every
sample, the affine map `alpha = 65535/((8192-10-1)*8-80)`,
`beta = -80*alpha`: after clipping to `[0, 65535]` and flooring, the
output equals the hand-computed reference on every sample. -/
theorem adjust_brightness_ramp (ch i : ℕ) (hch : ch < 3) (hi : i < 65536) :
    min 65535 (max 0 ⌊(adjust_brightness ramp (8*10*2/65536)).data ch i⌋) =
      min 65535 (max 0 ⌊(i : ℚ) * (65535 / ((8192 - 10 - 1) * 8 - 80)) +
        (-80) * (65535 / ((8192 - 10 - 1) * 8 - 80))⌋) := by
  have hrr : (8*10*2/65536 : ℚ) = 160/65536 := by norm_num
  have hmn : mnmx ramp (160/65536) = (80, 65448) := by
    rw [mnmx, if_neg (by norm_num), minValue_ramp, maxValue_ramp]
  have halpha : alphaOf ramp (160/65536) = 65535/65368 := by
    rw [alphaOf, hmn]
    norm_num
  have hbeta : betaOf ramp (160/65536) = -80 * (65535/65368) := by
    rw [betaOf, hmn, halpha]
  rw [hrr, adjust_brightness, if_neg (by norm_num)]
  show min 65535 (max 0 ⌊clipQ (ramp.data ch i) * alphaOf ramp (160/65536) +
      betaOf ramp (160/65536)⌋) = _
  rw [halpha, hbeta, show ramp.data ch i = (i : ℚ) from rfl,
    clipQ_natCast i (by omega)]
  norm_num

/-- Witness for C1 at channel `0`, pixel `1000`. -/
theorem adjust_brightness_ramp_witness :
    (0 : ℕ) < 3 ∧ (1000 : ℕ) < 65536 ∧
      min 65535 (max 0 ⌊(adjust_brightness ramp (8*10*2/65536)).data 0 1000⌋) =
        min 65535 (max 0 ⌊(1000 : ℚ) * (65535 / ((8192 - 10 - 1) * 8 - 80)) +
          (-80) * (65535 / ((8192 - 10 - 1) * 8 - 80))⌋) :=
  ⟨by norm_num, by norm_num, adjust_brightness_ramp 0 1000 (by norm_num) (by norm_num)⟩

/-! ### Row normalization in `camera_to_xyz` -/

theorem normStep_ne (m : Mat3) (i r : Fin 3) (j : Fin 3) (h : r ≠ i) :
    normStep m i r j = m r j := by
  simp [normStep, h]

theorem rowSum_normStep_ne (m : Mat3) (i r : Fin 3) (h : r ≠ i) :
    rowSum (normStep m i) r = rowSum m r := by
  rw [rowSum, rowSum, normStep_ne m i r 0 h, normStep_ne m i r 1 h,
    normStep_ne m i r 2 h]

theorem normStep_self (m : Mat3) (i j : Fin 3) :
    normStep m i i j =
      if 1/10000000 < rowSum m i then m i j / rowSum m i else 0 := by
  simp [normStep]

/-- Closed form of the sequential normalization loop: the three updates do
not interfere, so each row of the result only depends on the same row of
the input. -/
theorem normalizeRows_apply (m : Mat3) (i j : Fin 3) :
    normalizeRows m i j =
      if 1/10000000 < rowSum m i then m i j / rowSum m i else 0 := by
  have h0 : normalizeRows m 0 j =
      if 1/10000000 < rowSum m 0 then m 0 j / rowSum m 0 else 0 := by
    rw [normalizeRows, normStep_ne _ 2 0 j (by decide),
      normStep_ne _ 1 0 j (by decide), normStep_self]
  have h1 : normalizeRows m 1 j =
      if 1/10000000 < rowSum m 1 then m 1 j / rowSum m 1 else 0 := by
    rw [normalizeRows, normStep_ne _ 2 1 j (by decide), normStep_self,
      rowSum_normStep_ne m 0 1 (by decide), normStep_ne m 0 1 j (by decide)]
  have h2 : normalizeRows m 2 j =
      if 1/10000000 < rowSum m 2 then m 2 j / rowSum m 2 else 0 := by
    rw [normalizeRows, normStep_self, rowSum_normStep_ne _ 1 2 (by decide),
      rowSum_normStep_ne m 0 2 (by decide), normStep_ne _ 1 2 j (by decide),
      normStep_ne m 0 2 j (by decide)]
  fin_cases i
  · exact h0
  · exact h1
  · exact h2

/-- **C2, counterexample.** The code zeroes every row whose sum is at most
`1e-7`, including rows whose sum has large (negative) magnitude; the claim
as stated — zero only rows of negligible magnitude, divide all others —
fails on a color matrix whose first row sums to `-1`. -/
theorem camera_to_xyz_claimed_normalization_false :
    ¬ (∀ (cm : Mat3) (ab : Fin 3 → ℚ) (i j : Fin 3),
        normalizeRows (dot3 (diag3 ab) cm) i j =
          if |rowSum (dot3 (diag3 ab) cm) i| < 1/10000000 then 0
          else dot3 (diag3 ab) cm i j / rowSum (dot3 (diag3 ab) cm) i) := by
  intro h
  have hc := h ![![-1, 0, 0], ![0, 1, 0], ![0, 0, 1]] ![1, 1, 1] 0 0
  rw [normalizeRows_apply] at hc
  norm_num +decide [rowSum, dot3, diag3, Matrix.cons_val_zero, Matrix.cons_val_one,
    Matrix.head_cons] at hc

/-- **C2, amended.** In `camera_to_xyz`, `cam_from_xyz` is the analog
balance applied to the color matrix; each row of it whose sum exceeds
`1e-7` is divided by that sum (after which the row sums to `1`), and every
other row — including rows with large negative sums — is zeroed; the
normalized matrix is inverted and the inverse is applied to the pixel
buffer. -/
theorem camera_to_xyz_spec (cm : Mat3) (ab : Fin 3 → ℚ) :
    (∀ i j, dot3 (diag3 ab) cm i j = ab i * cm i j) ∧
    (∀ i j, normalizeRows (dot3 (diag3 ab) cm) i j =
      if 1/10000000 < rowSum (dot3 (diag3 ab) cm) i
      then dot3 (diag3 ab) cm i j / rowSum (dot3 (diag3 ab) cm) i else 0) ∧
    (∀ i, 1/10000000 < rowSum (dot3 (diag3 ab) cm) i →
      rowSum (normalizeRows (dot3 (diag3 ab) cm)) i = 1) ∧
    (∀ img i p, camera_to_xyz img cm ab i p =
      inv3 (normalizeRows (dot3 (diag3 ab) cm)) i 0 * img 0 p +
        inv3 (normalizeRows (dot3 (diag3 ab) cm)) i 1 * img 1 p +
        inv3 (normalizeRows (dot3 (diag3 ab) cm)) i 2 * img 2 p) := by
  refine ⟨?_, ?_, ?_, ?_⟩
  · intro i j
    have g0 : dot3 (diag3 ab) cm 0 j = ab 0 * cm 0 j := by
      simp +decide [dot3, diag3]
    have g1 : dot3 (diag3 ab) cm 1 j = ab 1 * cm 1 j := by
      simp +decide [dot3, diag3]
    have g2 : dot3 (diag3 ab) cm 2 j = ab 2 * cm 2 j := by
      simp +decide [dot3, diag3]
    fin_cases i
    · exact g0
    · exact g1
    · exact g2
  · intro i j
    exact normalizeRows_apply (dot3 (diag3 ab) cm) i j
  · intro i hi
    have hs : rowSum (dot3 (diag3 ab) cm) i ≠ 0 := by
      have : (0 : ℚ) < rowSum (dot3 (diag3 ab) cm) i := lt_trans (by norm_num) hi
      exact ne_of_gt this
    rw [rowSum, normalizeRows_apply, normalizeRows_apply, normalizeRows_apply,
      if_pos hi, if_pos hi, if_pos hi, div_add_div_same, div_add_div_same]
    rw [← rowSum, div_self hs]
  · intro img i p
    rfl

/-- Witness for the positive-row-sum hypothesis of `camera_to_xyz_spec`:
the identity calibration with unit analog balance. -/
theorem camera_to_xyz_spec_witness :
    (1 : ℚ)/10000000 <
        rowSum (dot3 (diag3 ![1, 1, 1]) ![![1, 0, 0], ![0, 1, 0], ![0, 0, 1]]) 0 ∧
      rowSum (normalizeRows
        (dot3 (diag3 ![1, 1, 1]) ![![1, 0, 0], ![0, 1, 0], ![0, 0, 1]])) 0 = 1 := by
  have h : (1 : ℚ)/10000000 <
      rowSum (dot3 (diag3 ![1, 1, 1]) ![![1, 0, 0], ![0, 1, 0], ![0, 0, 1]]) 0 := by
    norm_num +decide [rowSum, dot3, diag3, Matrix.cons_val_zero, Matrix.cons_val_one,
      Matrix.head_cons]
  exact ⟨h, (camera_to_xyz_spec ![![1, 0, 0], ![0, 1, 0], ![0, 0, 1]] ![1, 1, 1]).2.2.1 0 h⟩

/-! ### The gamma memo table: population, reuse, determinism -/

theorem cacheUpdate_self (c : Cache) (v : ℕ) (g : ℤ) : cacheUpdate c v g v = g := by
  simp [cacheUpdate]

theorem cacheUpdate_ne (c : Cache) (v : ℕ) (g : ℤ) (n : ℕ) (h : n ≠ v) :
    cacheUpdate c v g n = c n := by
  simp [cacheUpdate, h]

theorem gammaStep_hit (c : Cache) (q : ℚ) (h : 0 ≤ c (gammaSlot q)) :
    gammaStep c q = (c (gammaSlot q) % 65536, c) := by
  rw [gammaStep, if_pos h]

theorem gammaStep_miss_lin (c : Cache) (q : ℚ) (h1 : ¬ 0 ≤ c (gammaSlot q))
    (h2 : q < (thresh : ℚ)) :
    gammaStep c q =
      (max 0 (min 65535 (ratTrunc (q * linear_coeff))) % 65536,
       cacheUpdate c (gammaSlot q) (max 0 (min 65535 (ratTrunc (q * linear_coeff))))) := by
  rw [gammaStep, if_neg h1, if_pos h2]

theorem gammaStep_miss_pow (c : Cache) (q : ℚ) (h1 : ¬ 0 ≤ c (gammaSlot q))
    (h2 : ¬ q < (thresh : ℚ)) :
    gammaStep c q =
      (max 0 (min 65535 (realTrunc (powerVal (srcVal q)))) % 65536,
       cacheUpdate c (gammaSlot q) (max 0 (min 65535 (realTrunc (powerVal (srcVal q)))))) := by
  rw [gammaStep, if_neg h1, if_neg h2]

theorem gammaStep_populates (c : Cache) (q : ℚ) :
    0 ≤ (gammaStep c q).2 (gammaSlot q) := by
  by_cases h1 : 0 ≤ c (gammaSlot q)
  · rw [gammaStep_hit c q h1]
    exact h1
  · by_cases h2 : q < (thresh : ℚ)
    · rw [gammaStep_miss_lin c q h1 h2]
      show 0 ≤ cacheUpdate c (gammaSlot q) _ (gammaSlot q)
      rw [cacheUpdate_self]
      exact le_max_left 0 _
    · rw [gammaStep_miss_pow c q h1 h2]
      show 0 ≤ cacheUpdate c (gammaSlot q) _ (gammaSlot q)
      rw [cacheUpdate_self]
      exact le_max_left 0 _

theorem gammaStep_preserves (c : Cache) (q : ℚ) (n : ℕ) (h : 0 ≤ c n) :
    (gammaStep c q).2 n = c n := by
  by_cases h1 : 0 ≤ c (gammaSlot q)
  · rw [gammaStep_hit c q h1]
  · have hne : n ≠ gammaSlot q := fun he => h1 (he ▸ h)
    by_cases h2 : q < (thresh : ℚ)
    · rw [gammaStep_miss_lin c q h1 h2]
      exact cacheUpdate_ne c _ _ n hne
    · rw [gammaStep_miss_pow c q h1 h2]
      exact cacheUpdate_ne c _ _ n hne

theorem gammaStep_fst (c : Cache) (q : ℚ) :
    (gammaStep c q).1 = (gammaStep c q).2 (gammaSlot q) % 65536 := by
  by_cases h1 : 0 ≤ c (gammaSlot q)
  · rw [gammaStep_hit c q h1]
  · by_cases h2 : q < (thresh : ℚ)
    · rw [gammaStep_miss_lin c q h1 h2]
      show _ = cacheUpdate c (gammaSlot q) _ (gammaSlot q) % 65536
      rw [cacheUpdate_self]
    · rw [gammaStep_miss_pow c q h1 h2]
      show _ = cacheUpdate c (gammaSlot q) _ (gammaSlot q) % 65536
      rw [cacheUpdate_self]

theorem gammaList_nil (c : Cache) : gammaList c [] = ([], c) := rfl

theorem gammaList_cons (c : Cache) (q : ℚ) (rest : List ℚ) :
    gammaList c (q :: rest) =
      ((gammaStep c q).1 :: (gammaList (gammaStep c q).2 rest).1,
       (gammaList (gammaStep c q).2 rest).2) := rfl

theorem gammaList_preserves (l : List ℚ) (c : Cache) (n : ℕ) (h : 0 ≤ c n) :
    (gammaList c l).2 n = c n := by
  induction l generalizing c with
  | nil => rfl
  | cons q rest ih =>
    rw [gammaList_cons]
    have hp : (gammaStep c q).2 n = c n := gammaStep_preserves c q n h
    rw [ih (gammaStep c q).2 (by rw [hp]; exact h), hp]

theorem gammaList_populates (l : List ℚ) (c : Cache) (q : ℚ) (hq : q ∈ l) :
    0 ≤ (gammaList c l).2 (gammaSlot q) := by
  induction l generalizing c with
  | nil => cases hq
  | cons x rest ih =>
    rw [gammaList_cons]
    rcases List.mem_cons.mp hq with he | hm
    · subst he
      rw [gammaList_preserves rest _ _ (gammaStep_populates c q)]
      exact gammaStep_populates c q
    · exact ih _ hm

theorem gammaList_fst (l : List ℚ) (c : Cache) :
    (gammaList c l).1 = l.map (fun q => (gammaList c l).2 (gammaSlot q) % 65536) := by
  induction l generalizing c with
  | nil => rfl
  | cons q rest ih =>
    rw [gammaList_cons, List.map_cons]
    show (gammaStep c q).1 :: (gammaList (gammaStep c q).2 rest).1 =
      (gammaList (gammaStep c q).2 rest).2 (gammaSlot q) % 65536 ::
        rest.map (fun x => (gammaList (gammaStep c q).2 rest).2 (gammaSlot x) % 65536)
    rw [gammaStep_fst, gammaList_preserves rest _ _ (gammaStep_populates c q), ih]

theorem gammaList_all_hit (l : List ℚ) (c : Cache)
    (h : ∀ q ∈ l, 0 ≤ c (gammaSlot q)) :
    gammaList c l = (l.map (fun q => c (gammaSlot q) % 65536), c) := by
  induction l with
  | nil => rfl
  | cons q rest ih =>
    have hq : 0 ≤ c (gammaSlot q) := h q (List.mem_cons_self q rest)
    rw [gammaList_cons, gammaStep_hit c q hq]
    rw [ih (fun x hx => h x (List.mem_cons_of_mem q hx)), List.map_cons]

/-- **C4.** `gamma_correction` is deterministic and idempotent per
distinct input value: for any state of the memo table and any buffer,
running the converter a second time over the same buffer returns exactly
the same samples and leaves the table untouched, and after the first run
the slot of every processed sample is populated (non-sentinel, `≥ 0`) and
is the value the run returned. -/
theorem gamma_correction_idempotent (c : Cache) (b : Buf) :
    (gamma_correction (gamma_correction c b).2 b).1 = (gamma_correction c b).1 ∧
    (gamma_correction (gamma_correction c b).2 b).2 = (gamma_correction c b).2 ∧
    (bufSamples b).Forall (fun q => 0 ≤ (gamma_correction c b).2 (gammaSlot q)) := by
  have hall : ∀ q ∈ bufSamples b,
      0 ≤ (gammaList c (bufSamples b)).2 (gammaSlot q) :=
    fun q hq => gammaList_populates (bufSamples b) c q hq
  have h2 := gammaList_all_hit (bufSamples b) (gammaList c (bufSamples b)).2 hall
  refine ⟨?_, ?_, ?_⟩
  · rw [gamma_correction, gamma_correction, h2, gammaList_fst (bufSamples b) c]
  · rw [gamma_correction, gamma_correction, h2]
  · rw [List.forall_iff_forall_mem]
    exact hall

/-! ### Concrete values of the gamma transfer function -/

theorem ratTrunc_intCast (n : ℤ) : ratTrunc (n : ℚ) = n := by
  rw [ratTrunc]
  split
  · exact Int.ceil_intCast n
  · exact Int.floor_intCast n

theorem ratTrunc_eq_of (q : ℚ) (z : ℤ) (h0 : 0 ≤ q) (h1 : (z : ℚ) ≤ q)
    (h2 : q < (z : ℚ) + 1) : ratTrunc q = z := by
  rw [ratTrunc, if_neg (not_lt.mpr h0), Int.floor_eq_iff]
  exact ⟨h1, by exact_mod_cast h2⟩

theorem thresh_eq : thresh = 205 := by
  rw [thresh]
  exact ratTrunc_eq_of _ 205 (by norm_num [linear_thresh_coeff])
    (by norm_num [linear_thresh_coeff]) (by norm_num [linear_thresh_coeff])

theorem srcVal_intCast (n : ℤ) : srcVal (n : ℚ) = min 65535 (max 0 n) := by
  rw [srcVal, ratTrunc_intCast]

theorem powerVal_205_bounds : 2648 ≤ powerVal 205 ∧ powerVal 205 < 2649 := by
  have hX : (0:ℝ) ≤ (205:ℝ)/65535 := by norm_num
  have he : (1:ℝ)/gmm = 5/12 := by
    rw [gmm]
    norm_num
  have hp : powerVal 205 =
      (((205:ℝ)/65535) ^ ((5:ℝ)/12) * 1.055 - 0.055) * 65535 := by
    simp only [powerVal, black_offset, he]
    norm_num
  set t : ℝ := ((205:ℝ)/65535) ^ ((5:ℝ)/12) with htdef
  have ht0 : (0:ℝ) ≤ t := Real.rpow_nonneg hX _
  have ht12 : t ^ (12:ℕ) = ((205:ℝ)/65535) ^ (5:ℕ) := by
    rw [htdef, ← Real.rpow_natCast (((205:ℝ)/65535) ^ ((5:ℝ)/12)) 12,
      ← Real.rpow_mul hX, show ((5:ℝ)/12 * ((12:ℕ):ℝ)) = ((5:ℕ):ℝ) by push_cast; ring]
    exact Real.rpow_natCast _ 5
  have hA12 : (((2648:ℝ)/65535 + 0.055)/1.055) ^ (12:ℕ) ≤ ((205:ℝ)/65535) ^ (5:ℕ) := by
    norm_num
  have hB12 : ((205:ℝ)/65535) ^ (5:ℕ) < (((2649:ℝ)/65535 + 0.055)/1.055) ^ (12:ℕ) := by
    norm_num
  have hA : ((2648:ℝ)/65535 + 0.055)/1.055 ≤ t := by
    by_contra hcon
    push_neg at hcon
    have h1 : t ^ (12:ℕ) < (((2648:ℝ)/65535 + 0.055)/1.055) ^ (12:ℕ) :=
      pow_lt_pow_left₀ hcon ht0 (by norm_num)
    rw [ht12] at h1
    linarith
  have hB : t < ((2649:ℝ)/65535 + 0.055)/1.055 := by
    by_contra hcon
    push_neg at hcon
    have h1 : (((2649:ℝ)/65535 + 0.055)/1.055) ^ (12:ℕ) ≤ t ^ (12:ℕ) :=
      pow_le_pow_left₀ (by norm_num) hcon 12
    rw [ht12] at h1
    linarith
  rw [hp]
  constructor
  · nlinarith [hA]
  · nlinarith [hB]

theorem realTrunc_powerVal_205 : realTrunc (powerVal 205) = 2648 := by
  have hb := powerVal_205_bounds
  rw [realTrunc, if_neg (not_lt.mpr (by linarith [hb.1])), Int.floor_eq_iff]
  constructor
  · push_cast
    linarith [hb.1]
  · push_cast
    linarith [hb.2]

theorem gammaStep_init_205 : (gammaStep gamma_curve_init (205:ℚ)).1 = 2648 := by
  have h1 : ¬ 0 ≤ gamma_curve_init (gammaSlot (205:ℚ)) := by
    simp [gamma_curve_init]
  have h2 : ¬ (205:ℚ) < (thresh : ℚ) := by
    rw [thresh_eq]
    norm_num
  rw [gammaStep_miss_pow _ _ h1 h2]
  show max 0 (min 65535 (realTrunc (powerVal (srcVal (205:ℚ))))) % 65536 = 2648
  have hs : srcVal (205:ℚ) = 205 := by
    rw [srcVal, ratTrunc_eq_of (205:ℚ) 205 (by norm_num) (by norm_num) (by norm_num)]
    omega
  rw [hs, realTrunc_powerVal_205]
  omega

theorem gammaStep_init_204 : (gammaStep gamma_curve_init (204:ℚ)).1 = 2635 := by
  have h1 : ¬ 0 ≤ gamma_curve_init (gammaSlot (204:ℚ)) := by
    simp [gamma_curve_init]
  have h2 : (204:ℚ) < (thresh : ℚ) := by
    rw [thresh_eq]
    norm_num
  rw [gammaStep_miss_lin _ _ h1 h2]
  show max 0 (min 65535 (ratTrunc ((204:ℚ) * linear_coeff))) % 65536 = 2635
  rw [ratTrunc_eq_of ((204:ℚ) * linear_coeff) 2635 (by norm_num [linear_coeff])
    (by norm_num [linear_coeff]) (by norm_num [linear_coeff])]
  omega

theorem gammaStep_init_100 : (gammaStep gamma_curve_init (100:ℚ)).1 = 1292 := by
  have h1 : ¬ 0 ≤ gamma_curve_init (gammaSlot (100:ℚ)) := by
    simp [gamma_curve_init]
  have h2 : (100:ℚ) < (thresh : ℚ) := by
    rw [thresh_eq]
    norm_num
  rw [gammaStep_miss_lin _ _ h1 h2]
  show max 0 (min 65535 (ratTrunc ((100:ℚ) * linear_coeff))) % 65536 = 1292
  rw [ratTrunc_eq_of ((100:ℚ) * linear_coeff) 1292 (by norm_num [linear_coeff])
    (by norm_num [linear_coeff]) (by norm_num [linear_coeff])]
  omega

theorem gammaStep_init_100p5 : (gammaStep gamma_curve_init (201/2 : ℚ)).1 = 1298 := by
  have h1 : ¬ 0 ≤ gamma_curve_init (gammaSlot (201/2 : ℚ)) := by
    simp [gamma_curve_init]
  have h2 : (201/2 : ℚ) < (thresh : ℚ) := by
    rw [thresh_eq]
    norm_num
  rw [gammaStep_miss_lin _ _ h1 h2]
  show max 0 (min 65535 (ratTrunc ((201/2 : ℚ) * linear_coeff))) % 65536 = 1298
  rw [ratTrunc_eq_of ((201/2 : ℚ) * linear_coeff) 1298 (by norm_num [linear_coeff])
    (by norm_num [linear_coeff]) (by norm_num [linear_coeff])]
  omega

/-- **C3, counterexample.** The linear branch computes from the raw,
unclamped sample: on a fresh converter the samples `100.5` and `100` share
the clamped integer value `100`, yet produce `1298` and `1292`
respectively, so the output is not a function of the clamped integer value
and does not match the claimed formula `v * 12.92` at `v = 100`. -/
theorem gamma_correction_claimed_v_dependence_false :
    gammaSlot (201/2 : ℚ) = gammaSlot (100 : ℚ) ∧
    (gamma_correction gamma_curve_init ⟨1, fun _ _ => 201/2⟩).1.head? = some 1298 ∧
    (gamma_correction gamma_curve_init ⟨1, fun _ _ => 100⟩).1.head? = some 1292 := by
  refine ⟨?_, ?_, ?_⟩
  · rw [gammaSlot, gammaSlot, srcVal,
      ratTrunc_eq_of (201/2 : ℚ) 100 (by norm_num) (by norm_num) (by norm_num),
      srcVal, ratTrunc_eq_of (100 : ℚ) 100 (by norm_num) (by norm_num) (by norm_num)]
  · have hbs : bufSamples ⟨1, fun _ _ => (201/2 : ℚ)⟩ = [201/2, 201/2, 201/2] := by
      rfl
    show (gammaList gamma_curve_init (bufSamples ⟨1, fun _ _ => (201/2 : ℚ)⟩)).1.head? =
      some 1298
    rw [hbs, gammaList_cons, List.head?_cons, gammaStep_init_100p5]
  · have hbs : bufSamples ⟨1, fun _ _ => (100 : ℚ)⟩ = [100, 100, 100] := by
      rfl
    show (gammaList gamma_curve_init (bufSamples ⟨1, fun _ _ => (100 : ℚ)⟩)).1.head? =
      some 1292
    rw [hbs, gammaList_cons, List.head?_cons, gammaStep_init_100]

/-- On a miss, the slot written by `gammaStep` for a sample of integer
value `n` holds exactly the specification's transfer value of the clamped
level `min 65535 (max 0 n)` — including at the boundary level `205`,
where the code's power branch coincides with the specification's linear
value `2648`. -/
theorem gammaStep_miss_int_slot (c : Cache) (n : ℤ)
    (h1 : ¬ 0 ≤ c (gammaSlot (n : ℚ))) :
    (gammaStep c (n : ℚ)).2 (gammaSlot (n : ℚ)) =
      gammaSpecValue (min 65535 (max 0 n)) := by
  by_cases h2 : (n : ℚ) < (thresh : ℚ)
  · have hn : n < 205 := by
      rw [thresh_eq] at h2
      exact_mod_cast h2
    rw [gammaStep_miss_lin _ _ h1 h2]
    show cacheUpdate c (gammaSlot (n : ℚ))
      (max 0 (min 65535 (ratTrunc ((n : ℚ) * linear_coeff)))) (gammaSlot (n : ℚ)) = _
    rw [cacheUpdate_self]
    by_cases h3 : 0 ≤ n
    · have hv : min 65535 (max 0 n) = n := by omega
      rw [hv, gammaSpecValue, if_pos (by
        have hle : (n : ℚ) ≤ 204 := by exact_mod_cast (by omega : n ≤ 204)
        have : (204 : ℚ) < linear_thresh_coeff * 65535 := by
          norm_num [linear_thresh_coeff]
        linarith)]
    · have hv : min 65535 (max 0 n) = 0 := by omega
      rw [hv, gammaSpecValue, if_pos (by norm_num [linear_thresh_coeff])]
      have hr0 : ratTrunc (((0 : ℤ) : ℚ) * linear_coeff) = 0 := by
        rw [show ((0 : ℤ) : ℚ) * linear_coeff = 0 by push_cast; ring]
        rw [ratTrunc, if_neg (by norm_num)]
        simp
      have hneg : (n : ℚ) * linear_coeff < 0 := by
        have hn0 : (n : ℚ) < 0 := by exact_mod_cast (by omega : n < 0)
        have hlc : (0 : ℚ) < linear_coeff := by norm_num [linear_coeff]
        exact mul_neg_of_neg_of_pos hn0 hlc
      have htr : ratTrunc ((n : ℚ) * linear_coeff) ≤ 0 := by
        rw [ratTrunc, if_pos hneg]
        exact Int.ceil_le.mpr (by exact_mod_cast le_of_lt hneg)
      rw [hr0]
      omega
  · have hn : 205 ≤ n := by
      rw [thresh_eq] at h2
      push_neg at h2
      exact_mod_cast h2
    rw [gammaStep_miss_pow _ _ h1 h2]
    show cacheUpdate c (gammaSlot (n : ℚ))
      (max 0 (min 65535 (realTrunc (powerVal (srcVal (n : ℚ)))))) (gammaSlot (n : ℚ)) = _
    rw [cacheUpdate_self, srcVal_intCast]
    by_cases h4 : n = 205
    · subst h4
      rw [show min 65535 (max 0 (205:ℤ)) = 205 by omega, realTrunc_powerVal_205,
        gammaSpecValue, if_pos (by norm_num [linear_thresh_coeff])]
      rw [show ((205 : ℤ) : ℚ) * linear_coeff = (205 : ℚ) * linear_coeff by norm_num]
      rw [ratTrunc_eq_of ((205 : ℚ) * linear_coeff) 2648 (by norm_num [linear_coeff])
        (by norm_num [linear_coeff]) (by norm_num [linear_coeff])]
    · rw [gammaSpecValue, if_neg (by
        push_neg
        have h206 : (206 : ℚ) ≤ ((min 65535 (max 0 n) : ℤ) : ℚ) := by
          exact_mod_cast (by omega : (206:ℤ) ≤ min 65535 (max 0 n))
        have : linear_thresh_coeff * 65535 ≤ (206 : ℚ) := by
          norm_num [linear_thresh_coeff]
        linarith)]

theorem gammaSpecValue_bounds (v : ℤ) :
    0 ≤ gammaSpecValue v ∧ gammaSpecValue v ≤ 65535 := by
  rw [gammaSpecValue]
  split
  · constructor
    · omega
    · omega
  · constructor
    · omega
    · omega

theorem gammaSlot_intCast (n : ℤ) :
    ((gammaSlot (n : ℚ) : ℕ) : ℤ) = min 65535 (max 0 n) := by
  rw [gammaSlot, srcVal_intCast]
  omega

theorem specCache_init : specCache gamma_curve_init := by
  intro m hm
  simp [gamma_curve_init] at hm

/-- On a spec-consistent table, the output for a sample of integer value
`n` — whether a cache hit or a miss — is the specification's transfer
value of the clamped level. -/
theorem gammaStep_int_out (c : Cache) (n : ℤ) (hc : specCache c) :
    (gammaStep c (n : ℚ)).1 = gammaSpecValue (min 65535 (max 0 n)) := by
  obtain ⟨hb1, hb2⟩ := gammaSpecValue_bounds (min 65535 (max 0 n))
  by_cases h1 : 0 ≤ c (gammaSlot (n : ℚ))
  · rw [gammaStep_hit _ _ h1]
    show c (gammaSlot (n : ℚ)) % 65536 = _
    rw [hc _ h1, gammaSlot_intCast]
    omega
  · rw [gammaStep_fst, gammaStep_miss_int_slot c n h1]
    omega

/-- Processing a sample of integer value keeps the table spec-consistent. -/
theorem gammaStep_int_preserves (c : Cache) (n : ℤ) (hc : specCache c) :
    specCache (gammaStep c (n : ℚ)).2 := by
  intro m hm
  by_cases h1 : 0 ≤ c (gammaSlot (n : ℚ))
  · rw [gammaStep_hit _ _ h1] at hm ⊢
    exact hc m hm
  · by_cases hms : m = gammaSlot (n : ℚ)
    · subst hms
      rw [gammaStep_miss_int_slot c n h1, gammaSlot_intCast]
    · have hpres : (gammaStep c (n : ℚ)).2 m = c m := by
        by_cases h2 : (n : ℚ) < (thresh : ℚ)
        · rw [gammaStep_miss_lin _ _ h1 h2]
          exact cacheUpdate_ne _ _ _ _ hms
        · rw [gammaStep_miss_pow _ _ h1 h2]
          exact cacheUpdate_ne _ _ _ _ hms
      rw [hpres] at hm ⊢
      exact hc m hm

theorem gammaList_int (l : List ℚ) (c : Cache) (hc : specCache c)
    (hint : ∀ q ∈ l, ∃ k : ℤ, q = (k : ℚ)) :
    (gammaList c l).1 = l.map (fun q => gammaSpecValue (srcVal q)) ∧
      specCache (gammaList c l).2 := by
  induction l generalizing c with
  | nil => exact ⟨rfl, hc⟩
  | cons q rest ih =>
    obtain ⟨k, hk⟩ := hint q (List.mem_cons_self q rest)
    subst hk
    have hrest : ∀ x ∈ rest, ∃ j : ℤ, x = (j : ℚ) := fun x hx =>
      hint x (List.mem_cons_of_mem _ hx)
    have hpres : specCache (gammaStep c ((k : ℤ) : ℚ)).2 :=
      gammaStep_int_preserves c k hc
    obtain ⟨ih1, ih2⟩ := ih (gammaStep c ((k : ℤ) : ℚ)).2 hpres hrest
    constructor
    · rw [gammaList_cons, List.map_cons]
      show (gammaStep c ((k : ℤ) : ℚ)).1 ::
          (gammaList (gammaStep c ((k : ℤ) : ℚ)).2 rest).1 =
        gammaSpecValue (srcVal ((k : ℤ) : ℚ)) ::
          rest.map (fun x => gammaSpecValue (srcVal x))
      rw [gammaStep_int_out c k hc, srcVal_intCast, ih1]
    · rw [gammaList_cons]
      exact ih2

/-- **C3, amended.** For every buffer whose samples are all
integer-valued, `gamma_correction` on a fresh converter computes every
output — first encounters and cache hits alike — exactly as the claimed
transfer function of that sample's integer-rounded, range-clamped value
`srcVal` (linear segment below `0.0031308 * 65535`, power segment
otherwise, clamped and truncated to an integer); for non-integer samples
the linear branch uses the raw sample, so the output is not a function of
the clamped value alone. -/
theorem gamma_correction_integer_formula (b : Buf)
    (hint : ∀ ch i, ∃ k : ℤ, b.data ch i = (k : ℚ)) :
    (gamma_correction gamma_curve_init b).1 =
      (bufSamples b).map (fun q => gammaSpecValue (srcVal q)) := by
  have hl : ∀ q ∈ bufSamples b, ∃ k : ℤ, q = (k : ℚ) := by
    intro q hq
    rw [bufSamples, List.mem_flatMap] at hq
    obtain ⟨ch, _, hm⟩ := hq
    obtain ⟨i, _, rfl⟩ := List.mem_map.mp hm
    exact hint ch i
  exact (gammaList_int (bufSamples b) gamma_curve_init specCache_init hl).1

/-- Witness for the amended C3 on a one-pixel buffer of integer value
`150` on all channels. -/
theorem gamma_correction_integer_formula_witness :
    (∀ ch i, ∃ k : ℤ, (⟨1, fun _ _ => (150 : ℚ)⟩ : Buf).data ch i = (k : ℚ)) ∧
      (gamma_correction gamma_curve_init ⟨1, fun _ _ => (150 : ℚ)⟩).1 =
        (bufSamples ⟨1, fun _ _ => (150 : ℚ)⟩).map
          (fun q => gammaSpecValue (srcVal q)) := by
  constructor
  · intro ch i
    exact ⟨150, by norm_num⟩
  · exact gamma_correction_integer_formula _ (fun ch i => ⟨150, by norm_num⟩)

/-- **C10, counterexample.** The outputs at the largest linear-segment
level (`204`, giving `2635`) and the smallest power-segment level (`205`,
giving `2648`) differ by `13`, not by at most one. -/
theorem gamma_boundary_claim_false :
    (gammaStep gamma_curve_init (204:ℚ)).1 = 2635 ∧
    (gammaStep gamma_curve_init (205:ℚ)).1 = 2648 ∧
    1 < |(gammaStep gamma_curve_init (205:ℚ)).1 -
          (gammaStep gamma_curve_init (204:ℚ)).1| := by
  refine ⟨gammaStep_init_204, gammaStep_init_205, ?_⟩
  rw [gammaStep_init_204, gammaStep_init_205]
  norm_num

/-- **C10, amended.** The jump between the outputs at the boundary levels
`204` and `205` is `13` — one step of the linear slope `12.92` — while
continuity holds in the sense that at the same boundary input `205` the
power segment and the linear formula agree exactly after integer
truncation. -/
theorem gamma_boundary_jump_is_slope_step :
    (gammaStep gamma_curve_init (205:ℚ)).1 -
        (gammaStep gamma_curve_init (204:ℚ)).1 = 13 ∧
    (gammaStep gamma_curve_init (205:ℚ)).1 =
      max 0 (min 65535 (ratTrunc ((205:ℚ) * linear_coeff))) := by
  constructor
  · rw [gammaStep_init_204, gammaStep_init_205]
    norm_num
  · rw [gammaStep_init_205,
      ratTrunc_eq_of ((205:ℚ) * linear_coeff) 2648 (by norm_num [linear_coeff])
        (by norm_num [linear_coeff]) (by norm_num [linear_coeff])]
    omega

end RawConverter
